import Mathlib

/-!
Verification of the pendulum simulator notebook (`pendulum_simulator.ipynb`).

The notebook defines a single class `PendulumSimulator` with methods
`set_params`, `dynamics`, `rk4_step`, `simulate`, `compute_cartesian_coords`
and `compute_energy`, operating on PyTorch tensors whose last axis holds a
state `[theta, omega]`.  This file gives a shallow embedding of that class:

* tensors are records of a shape (`List ℕ`) and row-major data (`List ℝ`);
* the dynamic attribute dictionary used by `set_params` is an association
  list of attribute names to values;
* Python exceptions become `Except`/`Option` results;
* float arithmetic is modelled by real arithmetic.
-/

noncomputable section

namespace Pendulum

/-- Physical parameters of the simulator, as set by `__init__`:
`g = 9.81`, `L = 1.0`, `m = 1.0` (the `device` string plays no numeric role). -/
structure Params where
  g : ℝ
  L : ℝ
  m : ℝ

/-- The parameters installed by `__init__`. -/
def p0 : Params := ⟨9.81, 1.0, 1.0⟩

/-- A PyTorch tensor: a shape and the row-major flattened data. -/
structure Tensor where
  shape : List ℕ
  data : List ℝ

/-- Size of the last axis of a tensor (`shape[-1]`); all tensors handled by
the simulator have at least one axis, the default for an empty shape is junk. -/
def Tensor.lastDim (t : Tensor) : ℕ :=
  t.shape.getLastD 1

/-- Split a flat list into consecutive rows of length `n` (the rows of the
last axis of a row-major tensor).  A final ragged row is kept as-is; for
well-formed tensors every row has exactly `n` elements. -/
def chunk : ℕ → List ℝ → List (List ℝ)
  | _, [] => []
  | 0, _ :: _ => []
  | n + 1, a :: l => ((a :: l).take (n + 1)) :: chunk (n + 1) (l.drop n)
termination_by _ l => l.length
decreasing_by simp [List.length_drop]; omega

/-- Flatten a list of `[theta, omega]` pairs into the row-major data of a
tensor whose last axis has size 2. -/
def flatten2 : List (ℝ × ℝ) → List ℝ
  | [] => []
  | s :: rest => s.1 :: s.2 :: flatten2 rest

/-- Read the row-major data of a last-axis-2 tensor back as a list of
`(theta, omega)` pairs. -/
def pairsOf : List ℝ → List (ℝ × ℝ)
  | a :: b :: rest => (a, b) :: pairsOf rest
  | _ => []

/-- Elementwise map over a tensor (e.g. `torch.sin`). -/
def mapT (f : ℝ → ℝ) (t : Tensor) : Tensor :=
  ⟨t.shape, t.data.map f⟩

/-- Multiplication of a tensor by a Python scalar. -/
def smulT (c : ℝ) (t : Tensor) : Tensor :=
  ⟨t.shape, t.data.map (fun x => c * x)⟩

/-- Elementwise addition of two tensors.  The simulator only ever adds
tensors of identical shapes; addition of differing shapes (which PyTorch
would attempt to broadcast) is left unmodelled as `none`. -/
def addT (a b : Tensor) : Option Tensor :=
  if a.shape = b.shape then some ⟨a.shape, List.zipWith (fun x y => x + y) a.data b.data⟩
  else none

/-- The slice `t[..., i:j]` along the last axis. -/
def sliceLast (t : Tensor) (i j : ℕ) : Tensor :=
  ⟨t.shape.dropLast ++ [min j t.lastDim - min i t.lastDim],
   ((chunk t.lastDim t.data).map (fun r => (r.drop i).take (j - i))).flatten⟩

/-- The index `t[..., i]` along the last axis (the axis is dropped). -/
def selectLast (t : Tensor) (i : ℕ) : Tensor :=
  ⟨t.shape.dropLast, (chunk t.lastDim t.data).map (fun r => r.getD i 0)⟩

/-- `torch.cat([a, b], dim=-1)`: concatenate along the last axis. -/
def catLast (a b : Tensor) : Tensor :=
  ⟨a.shape.dropLast ++ [a.lastDim + b.lastDim],
   (List.zipWith (fun r s => r ++ s) (chunk a.lastDim a.data) (chunk b.lastDim b.data)).flatten⟩

/-- A tensor of zeros with the same shape as `t`
(one row of `torch.zeros((n_steps + 1, *initial_state.shape))`). -/
def zerosLike (t : Tensor) : Tensor :=
  ⟨t.shape, List.replicate t.shape.prod 0⟩

/-- The method `dynamics(self, state, t=0)`:
`theta, omega = state[..., 0:1], state[..., 1:2]`;
`dTheta_dt = omega`; `dOmega_dt = -(self.g/self.L)*torch.sin(theta)`;
returns `torch.cat([dTheta_dt, dOmega_dt], dim=-1)`.  The time argument `t`
is accepted (with default `0`) and ignored. -/
def dynamics (p : Params) (state : Tensor) (t : ℝ := 0) : Tensor :=
  let theta := sliceLast state 0 1
  let omega := sliceLast state 1 2
  let dTheta_dt := omega
  let dOmega_dt := smulT (-(p.g / p.L)) (mapT Real.sin theta)
  let _ := t
  catLast dTheta_dt dOmega_dt

/-- The method `rk4_step(self, state, dt)`, exactly as in the source:
`k1 = dynamics(state)`, `k2 = dynamics(state + 0.5*dt*k1)`,
`k3 = dynamics(state + 0.5*dt*k2)`, `k4 = dynamics(state + dt*k3)`,
result `state + (dt/6.0)*(k1 + 2*k2 + 2*k3 + k4)`. -/
def rk4_step (p : Params) (state : Tensor) (dt : ℝ) : Option Tensor := do
  let k1 := dynamics p state
  let s2 ← addT state (smulT (0.5 * dt) k1)
  let k2 := dynamics p s2
  let s3 ← addT state (smulT (0.5 * dt) k2)
  let k3 := dynamics p s3
  let s4 ← addT state (smulT dt k3)
  let k4 := dynamics p s4
  let sum1 ← addT k1 (smulT 2 k2)
  let sum2 ← addT sum1 (smulT 2 k3)
  let sum3 ← addT sum2 k4
  addT state (smulT (dt / 6) sum3)

/-- Pendulum state as a mathematical pair `(theta, omega)`; the elementwise
view of one row of a last-axis-2 tensor. -/
def dynamicsP (p : Params) (s : ℝ × ℝ) : ℝ × ℝ :=
  (s.2, -(p.g / p.L) * Real.sin s.1)

/-- Pairwise addition of two states. -/
def padd (a b : ℝ × ℝ) : ℝ × ℝ :=
  (a.1 + b.1, a.2 + b.2)

/-- Scalar multiple of a state. -/
def psmul (c : ℝ) (a : ℝ × ℝ) : ℝ × ℝ :=
  (c * a.1, c * a.2)

/-- The classical RK4 update on a single `(theta, omega)` state:
`k1 = f(s)`, `k2 = f(s + 0.5*dt*k1)`, `k3 = f(s + 0.5*dt*k2)`,
`k4 = f(s + dt*k3)`, result `s + (dt/6)*(k1 + 2*k2 + 2*k3 + k4)`,
with `f = dynamicsP`. -/
def rk4P (p : Params) (s : ℝ × ℝ) (dt : ℝ) : ℝ × ℝ :=
  let k1 := dynamicsP p s
  let k2 := dynamicsP p (padd s (psmul (0.5 * dt) k1))
  let k3 := dynamicsP p (padd s (psmul (0.5 * dt) k2))
  let k4 := dynamicsP p (padd s (psmul dt k3))
  padd s (psmul (dt / 6) (padd (padd (padd k1 (psmul 2 k2)) (psmul 2 k3)) k4))

/-- `initial_state.unsqueeze(0)` applied when `initial_state.dim() == 1`:
a single 2-vector is promoted to a batch of size 1. -/
def promoteDim1 (t : Tensor) : Tensor :=
  if t.shape.length = 1 then ⟨1 :: t.shape, t.data⟩ else t

/-- `n_steps = int(duration / dt)`: float division truncated to an integer
(equal to the floor for the positive arguments used by `simulate`). -/
def nStepsOf (duration dt : ℝ) : ℕ :=
  (⌊duration / dt⌋).toNat

/-- `torch.linspace(a, b, steps)`: `steps` evenly spaced samples from `a`
to `b`; a single sample is just `[a]`. -/
def linspace (a b : ℝ) (steps : ℕ) : List ℝ :=
  if steps = 0 then []
  else if steps = 1 then [a]
  else (List.range steps).map (fun i : ℕ => a + (b - a) * (i : ℝ) / ((steps - 1 : ℕ) : ℝ))

/-- The running state of the `simulate` loop after `k` iterations:
`state = initial_state` before the loop, then `state = rk4_step(state, dt)`
each iteration. -/
def simStates (p : Params) (init : Tensor) (dt : ℝ) : ℕ → Option Tensor
  | 0 => some init
  | k + 1 => do rk4_step p (← simStates p init dt k) dt

/-- The trajectory rows written by the `simulate` loop: row `i+1` receives
the state after `i+1` steps for `i in range(n_steps)`.  Row `0` of the
`torch.zeros` allocation is never written, so it stays all zeros. -/
def stepsList (p : Params) (init : Tensor) (dt : ℝ) : ℕ → Option (List Tensor)
  | 0 => some []
  | n + 1 => do
      let prev ← stepsList p init dt n
      let s ← simStates p init dt (n + 1)
      pure (prev ++ [s])

/-- The full trajectory returned by `simulate`, viewed as its list of rows:
the untouched zeros row followed by the states written by the loop. -/
def trajectoryOf (p : Params) (init : Tensor) (dt : ℝ) (n : ℕ) : Option (List Tensor) := do
  let steps ← stepsList p init dt n
  pure (zerosLike init :: steps)

/-- An argument accepted by `simulate`: already a `torch.Tensor`, or a plain
Python list of floats. -/
inductive PyInput where
  | tensor (t : Tensor)
  | ofList (l : List ℝ)

/-- The legacy `torch.Tensor` constructor, as called by `simulate` on
non-tensor input.  Its signatures accept `data` and an optional `device`
keyword but no `dtype` keyword, so the call
`torch.Tensor(initial_state, dtype=torch.float32, device=self.device)`
raises `TypeError` before any data is converted. -/
def torchTensorCtor (data : List ℝ) (dtypeGiven : Bool) : Except String Tensor :=
  if dtypeGiven then
    Except.error "TypeError: new received an invalid combination of arguments"
  else
    Except.ok ⟨[data.length], data⟩

/-- The tensor path of `simulate(initial_state, duration, dt)` (after the
`isinstance` check): promote a 1-dim state to a batch of one, compute
`n_steps`, allocate the zeros trajectory, build `times` with
`torch.linspace(0, duration, n_steps+1)`, and run the RK4 loop. -/
def simulateTensor (p : Params) (init : Tensor) (duration dt : ℝ) :
    Option (List ℝ × List Tensor) := do
  let init' := promoteDim1 init
  let n := nStepsOf duration dt
  let traj ← trajectoryOf p init' dt n
  pure (linspace 0 duration (n + 1), traj)

/-- The method `simulate(self, initial_state, duration, dt=0.01)` with
`return_tensor=True`.  A non-tensor initial state is passed to
`torch.Tensor(initial_state, dtype=torch.float32, device=self.device)`,
which raises `TypeError`; a tensor initial state goes through the
integration loop. -/
def simulate (p : Params) (initial_state : PyInput) (duration : ℝ) (dt : ℝ := 0.01) :
    Except String (List ℝ × List Tensor) :=
  match initial_state with
  | .ofList l =>
      match torchTensorCtor l true with
      | .error e => .error e
      | .ok t =>
          match simulateTensor p t duration dt with
          | some r => .ok r
          | none => .error "RuntimeError"
  | .tensor t =>
      match simulateTensor p t duration dt with
      | some r => .ok r
      | none => .error "RuntimeError"

/-- The method `compute_cartesian_coords(self, states)`:
`x = self.L*torch.sin(states[..., 0])`, `y = self.L*torch.cos(states[..., 0])`. -/
def compute_cartesian_coords (p : Params) (states : Tensor) : Tensor × Tensor :=
  (smulT p.L (mapT Real.sin (selectLast states 0)),
   smulT p.L (mapT Real.cos (selectLast states 0)))

/-- The `TypeError` raised when a Python float is called like a function. -/
def floatCallErr : String := "TypeError: float object is not callable"

/-- The method `compute_energy(self, states)`.  It computes
`T = 0.5*self.m*(self.L*omega)**2` and `1 - torch.cos(theta)`, but the
potential-energy line `U = self.m*self.g*self.L(1-torch.cos(theta))` calls
the float `self.L` like a function, so the method raises `TypeError` for
every input instead of returning an energy tensor. -/
def compute_energy (p : Params) (states : Tensor) : Except String Tensor :=
  let theta := selectLast states 0
  let omega := selectLast states 1
  let _T := smulT 0.5 (smulT p.m (mapT (fun x => x ^ 2) (smulT p.L omega)))
  let _oneMinusCos := mapT (fun x => 1 - x) (mapT Real.cos theta)
  let _ := p.m * p.g
  Except.error floatCallErr

/-- Modelled from the spec: the corrected total energy
`E = 0.5*m*(L*omega)^2 + m*g*L*(1-cos(theta))` of a single state, which §4.5
of the spec declares authoritative in place of the defective source line. -/
def computeEnergySpecP (p : Params) (s : ℝ × ℝ) : ℝ :=
  0.5 * p.m * (p.L * s.2) ^ 2 + p.m * p.g * p.L * (1 - Real.cos s.1)

/-- A Python attribute value: a float or a string (the `device` attribute). -/
inductive PyVal where
  | num (x : ℝ)
  | str (s : String)

/-- The instance attribute dictionary of a `PendulumSimulator`. -/
abbrev AttrMap : Type := List (String × PyVal)

/-- The instance attributes written by `__init__(self, device="mps")`. -/
def initAttrs : AttrMap :=
  [("device", PyVal.str "mps"), ("g", PyVal.num 9.81),
   ("L", PyVal.num 1.0), ("m", PyVal.num 1.0)]

/-- The methods defined on the class `PendulumSimulator`; `hasattr` finds
these as well as the instance attributes.  (Attributes inherited from
`object` are not modelled; no claim mentions them.) -/
def classMethods : List String :=
  ["__init__", "set_params", "dynamics", "rk4_step", "simulate",
   "compute_cartesian_coords", "compute_energy"]

/-- `hasattr(self, key)`: `key` is an instance attribute or a class method. -/
def hasattr (m : AttrMap) (k : String) : Bool :=
  (List.map Prod.fst m).contains k || classMethods.contains k

/-- `setattr(self, key, value)`: overwrite an existing instance attribute, or
add a new instance attribute (shadowing a class method of the same name). -/
def setattr (m : AttrMap) (k : String) (v : PyVal) : AttrMap :=
  if (List.map Prod.fst m).contains k then
    List.map (fun kv => if kv.1 = k then (k, v) else kv) m
  else
    m ++ [(k, v)]

/-- Reading back attribute `k` of the object: the value stored in the
instance attribute dictionary, if any.  (Reading a class method returns the
bound method object; no claim depends on that, so it is not modelled.) -/
def getattrVal (m : AttrMap) (k : String) : Option PyVal :=
  (m.find? (fun kv => kv.1 == k)).map Prod.snd

/-- The method `set_params(self, **kwargs)`: iterate over the keyword
arguments in order; `setattr` each key for which `hasattr` holds, and raise
`ValueError` naming the first key for which it does not.  The result is the
attribute dictionary as mutated so far, together with the key named by the
raised `ValueError`, if any. -/
def set_params (m : AttrMap) : List (String × PyVal) → AttrMap × Option String
  | [] => (m, none)
  | (k, v) :: rest =>
      if hasattr m k then set_params (setattr m k v) rest
      else (m, some k)

/-! ### Basic list-level lemmas about `chunk`, `flatten2` and `pairsOf` -/

theorem chunk_two (a b : ℝ) (l : List ℝ) :
    chunk 2 (a :: b :: l) = [a, b] :: chunk 2 l := by
  simp [chunk]

theorem chunk_one (l : List ℝ) :
    chunk 1 l = l.map (fun x => [x]) := by
  induction l with
  | nil => simp [chunk]
  | cons a l ih => simp [chunk, ih]

theorem chunk2_flatten2 (L : List (ℝ × ℝ)) :
    chunk 2 (flatten2 L) = L.map (fun s => [s.1, s.2]) := by
  induction L with
  | nil => simp [flatten2, chunk]
  | cons s L ih => simp [flatten2, chunk_two, ih]

theorem pairsOf_flatten2 (L : List (ℝ × ℝ)) :
    pairsOf (flatten2 L) = L := by
  induction L with
  | nil => simp [flatten2, pairsOf]
  | cons s L ih => simp [flatten2, pairsOf, ih]

theorem flatten2_length (L : List (ℝ × ℝ)) :
    (flatten2 L).length = 2 * L.length := by
  induction L with
  | nil => simp [flatten2]
  | cons s L ih => simp [flatten2, ih]; ring

theorem zipWith_map_same {α β γ δ : Type} (h : β → γ → δ) (f : α → β) (g : α → γ)
    (L : List α) :
    List.zipWith h (L.map f) (L.map g) = L.map (fun x => h (f x) (g x)) := by
  induction L with
  | nil => simp
  | cons a L ih => simp [ih]

theorem zipWith_self_map_right {α γ : Type} (h : α → α → γ) (v : α → α) (L : List α) :
    List.zipWith h L (L.map v) = L.map (fun x => h x (v x)) := by
  induction L with
  | nil => simp
  | cons a L ih => simp [ih]

theorem flatten_map_pair (f g : (ℝ × ℝ) → ℝ) (L : List (ℝ × ℝ)) :
    (L.map (fun s => [f s, g s])).flatten = flatten2 (L.map (fun s => (f s, g s))) := by
  induction L with
  | nil => simp [flatten2]
  | cons s L ih => simp [flatten2, ih]

theorem map_flatten2 (u : ℝ → ℝ) (A : List (ℝ × ℝ)) :
    (flatten2 A).map u = flatten2 (A.map (fun s => (u s.1, u s.2))) := by
  induction A with
  | nil => simp [flatten2]
  | cons s A ih => simp [flatten2, ih]

theorem zipWith_add_flatten2 (A B : List (ℝ × ℝ)) :
    List.zipWith (fun x y => x + y) (flatten2 A) (flatten2 B) =
      flatten2 (List.zipWith padd A B) := by
  induction A generalizing B with
  | nil => simp [flatten2]
  | cons s A ih =>
      cases B with
      | nil => simp [flatten2]
      | cons r B => simp [flatten2, padd, ih]

/-! ### Action of the tensor operations on last-axis-2 tensors -/

theorem lastDim_concat2 (bs : List ℕ) (d : List ℝ) :
    (Tensor.mk (bs ++ [2]) d).lastDim = 2 := by
  simp [Tensor.lastDim, List.getLastD_concat]

theorem smulT_flatten2 (c : ℝ) (sh : List ℕ) (A : List (ℝ × ℝ)) :
    smulT c ⟨sh, flatten2 A⟩ = ⟨sh, flatten2 (A.map (psmul c))⟩ := by
  have hps : (fun s : ℝ × ℝ => ((c * s.1, c * s.2) : ℝ × ℝ)) = psmul c := by
    funext s; rfl
  simp [smulT, map_flatten2, hps]

theorem addT_map (sh : List ℕ) (A : List (ℝ × ℝ)) (u v : (ℝ × ℝ) → (ℝ × ℝ)) :
    addT ⟨sh, flatten2 (A.map u)⟩ ⟨sh, flatten2 (A.map v)⟩ =
      some ⟨sh, flatten2 (A.map (fun x => padd (u x) (v x)))⟩ := by
  simp [addT, zipWith_add_flatten2, zipWith_map_same]

theorem addT_id_map (sh : List ℕ) (A : List (ℝ × ℝ)) (v : (ℝ × ℝ) → (ℝ × ℝ)) :
    addT ⟨sh, flatten2 A⟩ ⟨sh, flatten2 (A.map v)⟩ =
      some ⟨sh, flatten2 (A.map (fun x => padd x (v x)))⟩ := by
  simp [addT, zipWith_add_flatten2, zipWith_self_map_right]

/-- The slice `state[..., 0:1]` of a last-axis-2 batch: the `theta` column. -/
theorem sliceLast_zero (bs : List ℕ) (L : List (ℝ × ℝ)) :
    sliceLast ⟨bs ++ [2], flatten2 L⟩ 0 1 = ⟨bs ++ [1], L.map (fun s => s.1)⟩ := by
  have hl : (Tensor.mk (bs ++ [2]) (flatten2 L)).lastDim = 2 := lastDim_concat2 bs _
  simp only [sliceLast, hl, Tensor.mk.injEq]
  refine ⟨by simp [List.dropLast_concat], ?_⟩
  induction L with
  | nil => simp [flatten2, chunk]
  | cons s L ih => rw [flatten2, chunk_two]; simpa using ih (lastDim_concat2 bs _)

/-- The slice `state[..., 1:2]` of a last-axis-2 batch: the `omega` column. -/
theorem sliceLast_one (bs : List ℕ) (L : List (ℝ × ℝ)) :
    sliceLast ⟨bs ++ [2], flatten2 L⟩ 1 2 = ⟨bs ++ [1], L.map (fun s => s.2)⟩ := by
  have hl : (Tensor.mk (bs ++ [2]) (flatten2 L)).lastDim = 2 := lastDim_concat2 bs _
  simp only [sliceLast, hl, Tensor.mk.injEq]
  refine ⟨by simp [List.dropLast_concat], ?_⟩
  induction L with
  | nil => simp [flatten2, chunk]
  | cons s L ih => rw [flatten2, chunk_two]; simpa using ih (lastDim_concat2 bs _)

/-- Concatenating two width-1 columns along the last axis rebuilds a
last-axis-2 batch. -/
theorem catLast_cols (bs : List ℕ) (L : List (ℝ × ℝ)) (f g : (ℝ × ℝ) → ℝ) :
    catLast ⟨bs ++ [1], L.map f⟩ ⟨bs ++ [1], L.map g⟩ =
      ⟨bs ++ [2], flatten2 (L.map (fun s => (f s, g s)))⟩ := by
  have hl : ∀ d : List ℝ, (Tensor.mk (bs ++ [1]) d).lastDim = 1 := by
    intro d; simp [Tensor.lastDim, List.getLastD_concat]
  simp only [catLast, hl, chunk_one, Tensor.mk.injEq]
  refine ⟨by simp [List.dropLast_concat], ?_⟩
  rw [List.map_map, List.map_map, zipWith_map_same]
  have hfun : (fun x => ((fun x => [x]) ∘ f) x ++ ((fun x => [x]) ∘ g) x) =
      fun s => [f s, g s] := by
    funext s; simp [Function.comp]
  rw [hfun, flatten_map_pair]

/-- `dynamics` on a well-shaped batch acts elementwise as `dynamicsP`,
for every value of the ignored time argument. -/
theorem dynamics_flatten2 (p : Params) (bs : List ℕ) (L : List (ℝ × ℝ)) (time : ℝ) :
    dynamics p ⟨bs ++ [2], flatten2 L⟩ time =
      ⟨bs ++ [2], flatten2 (L.map (dynamicsP p))⟩ := by
  simp only [dynamics, sliceLast_zero, sliceLast_one, mapT, smulT, List.map_map]
  rw [catLast_cols]
  rfl

/-- `rk4_step` on a well-shaped batch: every addition succeeds (all
intermediate tensors share the input's shape) and the update acts
elementwise as the classical RK4 formula `rk4P`. -/
theorem rk4_step_flatten2 (p : Params) (bs : List ℕ) (L : List (ℝ × ℝ)) (dt : ℝ) :
    rk4_step p ⟨bs ++ [2], flatten2 L⟩ dt =
      some ⟨bs ++ [2], flatten2 (L.map (fun s => rk4P p s dt))⟩ := by
  simp only [rk4_step, dynamics_flatten2, smulT_flatten2, List.map_map,
    addT_id_map, addT_map, Option.bind_eq_bind, Option.some_bind]
  rfl

/-- After any number of loop iterations the running state is still a
well-shaped batch (elementwise iteration of `rk4P`). -/
theorem simStates_exists (p : Params) (bs : List ℕ) (L : List (ℝ × ℝ)) (dt : ℝ) :
    ∀ k, ∃ M : List (ℝ × ℝ),
      simStates p ⟨bs ++ [2], flatten2 L⟩ dt k = some ⟨bs ++ [2], flatten2 M⟩ := by
  intro k
  induction k with
  | zero => exact ⟨L, rfl⟩
  | succ k ih =>
      obtain ⟨M, hM⟩ := ih
      refine ⟨M.map (fun s => rk4P p s dt), ?_⟩
      simp [simStates, hM, rk4_step_flatten2]

/-- The rows written by the loop: there are `n` of them and each has the
input's shape. -/
theorem stepsList_exists (p : Params) (bs : List ℕ) (L : List (ℝ × ℝ)) (dt : ℝ) :
    ∀ n, ∃ ts : List Tensor,
      stepsList p ⟨bs ++ [2], flatten2 L⟩ dt n = some ts ∧
        ts.length = n ∧ ∀ e ∈ ts, e.shape = bs ++ [2] := by
  intro n
  induction n with
  | zero => exact ⟨[], rfl, rfl, by simp⟩
  | succ n ih =>
      obtain ⟨ts, hts, hlen, hshape⟩ := ih
      obtain ⟨M, hM⟩ := simStates_exists p bs L dt (n + 1)
      refine ⟨ts ++ [⟨bs ++ [2], flatten2 M⟩], ?_, by simp [hlen], ?_⟩
      · simp [stepsList, hts, hM]
      · intro e he
        rcases List.mem_append.mp he with h | h
        · exact hshape e h
        · simp at h; subst h; rfl

/-- Batch promotion keeps the last axis of size 2 and the data unchanged. -/
theorem promoteDim1_concat2 (bs : List ℕ) (d : List ℝ) :
    ∃ bs' : List ℕ, promoteDim1 ⟨bs ++ [2], d⟩ = ⟨bs' ++ [2], d⟩ := by
  cases bs with
  | nil => exact ⟨[1], by simp [promoteDim1]⟩
  | cons a l => exact ⟨a :: l, by simp [promoteDim1]⟩

/-- Master description of a `simulate` run on a tensor initial state: the
run succeeds, `times` is the `linspace`, the trajectory has `n_steps + 1`
rows all of the promoted initial state's shape, and its row `0` is the
untouched zeros row of the allocation. -/
theorem simulateTensor_run (p : Params) (bs : List ℕ) (L : List (ℝ × ℝ))
    (duration dt : ℝ) :
    ∃ traj : List Tensor,
      simulateTensor p ⟨bs ++ [2], flatten2 L⟩ duration dt =
          some (linspace 0 duration (nStepsOf duration dt + 1), traj) ∧
        traj.length = nStepsOf duration dt + 1 ∧
        traj.head? = some (zerosLike (promoteDim1 ⟨bs ++ [2], flatten2 L⟩)) ∧
        ∀ e ∈ traj, e.shape = (promoteDim1 ⟨bs ++ [2], flatten2 L⟩).shape := by
  obtain ⟨bs', hbs'⟩ := promoteDim1_concat2 bs (flatten2 L)
  obtain ⟨ts, hts, hlen, hshape⟩ :=
    stepsList_exists p bs' L dt (nStepsOf duration dt)
  refine ⟨zerosLike (promoteDim1 ⟨bs ++ [2], flatten2 L⟩) :: ts, ?_, ?_, rfl, ?_⟩
  · simp [simulateTensor, trajectoryOf, hbs', hts]
  · simp [hlen]
  · intro e he
    rcases List.mem_cons.mp he with h | h
    · subst h; rfl
    · rw [hbs']
      exact hshape e h

/-- The same description for the public entry point `simulate` on a tensor
initial state. -/
theorem simulate_run (p : Params) (bs : List ℕ) (L : List (ℝ × ℝ))
    (duration dt : ℝ) :
    ∃ traj : List Tensor,
      simulate p (.tensor ⟨bs ++ [2], flatten2 L⟩) duration dt =
          .ok (linspace 0 duration (nStepsOf duration dt + 1), traj) ∧
        traj.length = nStepsOf duration dt + 1 ∧
        traj.head? = some (zerosLike (promoteDim1 ⟨bs ++ [2], flatten2 L⟩)) ∧
        ∀ e ∈ traj, e.shape = (promoteDim1 ⟨bs ++ [2], flatten2 L⟩).shape := by
  obtain ⟨traj, hrun, hlen, hhead, hshape⟩ :=
    simulateTensor_run p bs L duration dt
  exact ⟨traj, by simp [simulate, hrun], hlen, hhead, hshape⟩

/-! ### Lemmas about `linspace` -/

theorem linspace_length (a b : ℝ) (steps : ℕ) :
    (linspace a b steps).length = steps := by
  unfold linspace
  split_ifs with h0 h1
  · simp [h0]
  · simp [h1]
  · simp

theorem linspace_getD (a b : ℝ) (n i : ℕ) (hn : 0 < n) (hi : i < n + 1) :
    (linspace a b (n + 1)).getD i 0 = a + (b - a) * i / n := by
  unfold linspace
  have h0 : n + 1 ≠ 0 := by omega
  have h1 : n + 1 ≠ 1 := by omega
  rw [if_neg h0, if_neg h1, List.getD_eq_getElem?_getD, List.getElem?_map,
    List.getElem?_range hi]
  simp

theorem linspace_head (a b : ℝ) (n : ℕ) :
    (linspace a b (n + 1)).getD 0 0 = a := by
  cases n with
  | zero => simp [linspace]
  | succ n =>
      rw [linspace_getD a b (n + 1) 0 (by omega) (by omega)]
      simp

theorem linspace_last (a b : ℝ) (n : ℕ) (hn : 0 < n) :
    (linspace a b (n + 1)).getLastD 0 = b := by
  unfold linspace
  have h0 : n + 1 ≠ 0 := by omega
  have h1 : n + 1 ≠ 1 := by omega
  rw [if_neg h0, if_neg h1, List.range_succ, List.map_append]
  simp only [List.map_cons, List.map_nil]
  rw [List.getLastD_concat]
  have hn' : (n : ℝ) ≠ 0 := Nat.cast_ne_zero.mpr (by omega)
  field_simp

/-! ### Lemmas about the attribute model and `set_params` -/

theorem hasattr_iff (m : AttrMap) (k : String) :
    hasattr m k = true ↔ (k ∈ List.map Prod.fst m ∨ k ∈ classMethods) := by
  simp [hasattr]

/-- `setattr` on a key that `hasattr` already finds does not change which
keys `hasattr` finds. -/
theorem hasattr_setattr (m : AttrMap) (k : String) (v : PyVal)
    (hk : hasattr m k = true) (k' : String) :
    hasattr (setattr m k v) k' = hasattr m k' := by
  rw [Bool.eq_iff_iff, hasattr_iff, hasattr_iff]
  unfold setattr
  by_cases hmem : (List.map Prod.fst m).contains k
  · rw [if_pos hmem]
    have hkeys : List.map Prod.fst (List.map (fun kv => if kv.1 = k then (k, v) else kv) m)
        = List.map Prod.fst m := by
      rw [List.map_map]
      apply List.map_congr_left
      intro kv _
      by_cases h : kv.1 = k
      · simp [h]
      · simp [h]
    rw [hkeys]
  · rw [if_neg hmem]
    have hcm : k ∈ classMethods := by
      rcases (hasattr_iff m k).mp hk with h | h
      · exact absurd h (by simpa using hmem)
      · exact h
    simp only [List.map_append, List.map_cons, List.map_nil, List.mem_append,
      List.mem_singleton]
    constructor
    · rintro ((h | rfl) | h)
      · exact Or.inl h
      · exact Or.inr hcm
      · exact Or.inr h
    · rintro (h | h)
      · exact Or.inl (Or.inl h)
      · exact Or.inr h

/-- `set_params` raises no error exactly when every key names an existing
attribute of the object it started from. -/
theorem set_params_ok_iff (m : AttrMap) (us : List (String × PyVal)) :
    (set_params m us).2 = none ↔ ∀ kv ∈ us, hasattr m kv.1 = true := by
  induction us generalizing m with
  | nil => simp [set_params]
  | cons kv rest ih =>
      obtain ⟨k, v⟩ := kv
      by_cases h : hasattr m k = true
      · have := ih (setattr m k v)
        simp only [set_params, h, if_true]
        rw [this]
        constructor
        · intro hrest
          intro kv hkv
          rcases List.mem_cons.mp hkv with rfl | hkv
          · exact h
          · rw [← hasattr_setattr m k v h kv.1]
            exact hrest kv hkv
        · intro hall kv hkv
          rw [hasattr_setattr m k v h kv.1]
          exact hall kv (List.mem_cons_of_mem _ hkv)
      · simp [set_params, h]

/-- When `set_params` raises, the `ValueError` names a key that has no
attribute, and that key came from the argument mapping. -/
theorem set_params_err (m : AttrMap) (us : List (String × PyVal)) (k : String)
    (h : (set_params m us).2 = some k) :
    hasattr m k = false ∧ k ∈ us.map Prod.fst := by
  induction us generalizing m with
  | nil => simp [set_params] at h
  | cons kv rest ih =>
      obtain ⟨k0, v0⟩ := kv
      by_cases h0 : hasattr m k0 = true
      · simp only [set_params, h0, if_true] at h
        obtain ⟨hfalse, hmem⟩ := ih (setattr m k0 v0) h
        rw [hasattr_setattr m k0 v0 h0 k] at hfalse
        exact ⟨hfalse, List.mem_cons_of_mem _ hmem⟩
      · simp only [set_params, h0, if_false] at h
        simp at h
        subst h
        exact ⟨Bool.not_eq_true _ ▸ (by simpa using h0), by simp⟩

/-- Replacing the entries keyed `k` leaves `find?` for any other key
unchanged. -/
theorem find?_replace_other (m : AttrMap) (k : String) (v : PyVal) (k' : String)
    (hne : k' ≠ k) :
    (List.map (fun kv => if kv.1 = k then (k, v) else kv) m).find?
        (fun kv => kv.1 == k') = m.find? (fun kv => kv.1 == k') := by
  induction m with
  | nil => rfl
  | cons kv0 m ih =>
      obtain ⟨k0, v0⟩ := kv0
      by_cases h0 : k0 = k
      · subst h0
        have hb : (k0 == k') = false := beq_eq_false_iff_ne.mpr (Ne.symm hne)
        simp [List.find?_cons, hb, ih]
      · simp only [List.map_cons, if_neg h0, List.find?_cons]
        cases hb : (k0 == k') <;> simp [hb, ih]

/-- Replacing the entries keyed `k` makes `find?` for `k` return the new
value, provided `k` occurs among the keys. -/
theorem find?_replace_self (m : AttrMap) (k : String) (v : PyVal)
    (hmem : k ∈ List.map Prod.fst m) :
    (List.map (fun kv => if kv.1 = k then (k, v) else kv) m).find?
        (fun kv => kv.1 == k) = some (k, v) := by
  induction m with
  | nil => simp at hmem
  | cons kv0 m ih =>
      obtain ⟨k0, v0⟩ := kv0
      by_cases h0 : k0 = k
      · subst h0
        simp [List.find?_cons]
      · have hmem' : k ∈ List.map Prod.fst m := by
          rcases List.mem_map.mp hmem with ⟨a, ha, hak⟩
          rcases List.mem_cons.mp ha with rfl | ha'
          · exact absurd hak h0
          · exact List.mem_map.mpr ⟨a, ha', hak⟩
        have hb : ((k0, v0).1 == k) = false := beq_eq_false_iff_ne.mpr h0
        simp only [List.map_cons, if_neg h0, List.find?_cons, hb]
        exact ih hmem'

/-- A `setattr` write really overwrites: the named attribute reads back as
the written value afterwards. -/
theorem getattrVal_setattr_self (m : AttrMap) (k : String) (v : PyVal) :
    getattrVal (setattr m k v) k = some v := by
  unfold getattrVal setattr
  by_cases hmem : (List.map Prod.fst m).contains k
  · rw [if_pos hmem, find?_replace_self m k v (by simpa using hmem)]
    rfl
  · rw [if_neg hmem, List.find?_append]
    have hnone : m.find? (fun kv => kv.1 == k) = none := by
      rw [List.find?_eq_none]
      intro kv hkv hbeq
      have hk1 : kv.1 = k := by simpa using hbeq
      exact absurd (by simpa using List.mem_map.mpr ⟨kv, hkv, hk1⟩) hmem
    rw [hnone]
    simp

/-- A `setattr` write changes no attribute other than the named one. -/
theorem getattrVal_setattr_other (m : AttrMap) (k : String) (v : PyVal)
    (k' : String) (hne : k' ≠ k) :
    getattrVal (setattr m k v) k' = getattrVal m k' := by
  unfold getattrVal setattr
  by_cases hmem : (List.map Prod.fst m).contains k
  · rw [if_pos hmem, find?_replace_other m k v k' hne]
  · rw [if_neg hmem, List.find?_append]
    have hb : (k == k') = false := beq_eq_false_iff_ne.mpr (Ne.symm hne)
    simp [List.find?_cons, hb]

/-- A run of `set_params` whose keys all name attributes succeeds and
returns the object mutated by exactly the in-order `setattr` writes. -/
theorem set_params_ok_map (m : AttrMap) (us : List (String × PyVal))
    (h : ∀ kv ∈ us, hasattr m kv.1 = true) :
    set_params m us =
      (us.foldl (fun acc kv => setattr acc kv.1 kv.2) m, none) := by
  induction us generalizing m with
  | nil => simp [set_params]
  | cons kv us ih =>
      obtain ⟨k, v⟩ := kv
      have hk : hasattr m k = true := h (k, v) (by simp)
      simp only [set_params, hk, if_true, List.foldl_cons]
      exact ih (setattr m k v) (fun kv hkv => by
        rw [hasattr_setattr m k v hk kv.1]
        exact h kv (List.mem_cons_of_mem _ hkv))

/-- The index `states[..., 0]` of a last-axis-2 batch: the `theta` values. -/
theorem selectLast_zero (bs : List ℕ) (L : List (ℝ × ℝ)) :
    selectLast ⟨bs ++ [2], flatten2 L⟩ 0 = ⟨bs, L.map (fun s => s.1)⟩ := by
  have hl : (Tensor.mk (bs ++ [2]) (flatten2 L)).lastDim = 2 := lastDim_concat2 bs _
  simp only [selectLast, hl, chunk2_flatten2, Tensor.mk.injEq]
  exact ⟨by simp [List.dropLast_concat], by simp [List.map_map, Function.comp]⟩

/-- The index `states[..., 1]` of a last-axis-2 batch: the `omega` values. -/
theorem selectLast_one (bs : List ℕ) (L : List (ℝ × ℝ)) :
    selectLast ⟨bs ++ [2], flatten2 L⟩ 1 = ⟨bs, L.map (fun s => s.2)⟩ := by
  have hl : (Tensor.mk (bs ++ [2]) (flatten2 L)).lastDim = 2 := lastDim_concat2 bs _
  simp only [selectLast, hl, chunk2_flatten2, Tensor.mk.injEq]
  exact ⟨by simp [List.dropLast_concat], by simp [List.map_map, Function.comp]⟩

/-! ### The claims -/

/-- C5: on any batch of states (arbitrary leading shape, last axis 2),
`rk4_step(state, dt)` returns exactly
`state + (dt/6)*(k1 + 2*k2 + 2*k3 + k4)` with `k1 = f(state)`,
`k2 = f(state + 0.5*dt*k1)`, `k3 = f(state + 0.5*dt*k2)`,
`k4 = f(state + dt*k3)` — elementwise the update `rk4P` — where the
dynamics function `f` maps `[theta, omega]` to `[omega, -(g/L)*sin(theta)]`
and ignores its time argument. -/
theorem c5_rk4_step_formula (p : Params) (bs : List ℕ) (L : List (ℝ × ℝ)) (dt : ℝ) :
    rk4_step p ⟨bs ++ [2], flatten2 L⟩ dt =
        some ⟨bs ++ [2], flatten2 (L.map (fun s => rk4P p s dt))⟩ ∧
      (∀ s : ℝ × ℝ, dynamicsP p s = (s.2, -(p.g / p.L) * Real.sin s.1)) ∧
      (∀ time : ℝ, dynamics p ⟨bs ++ [2], flatten2 L⟩ time =
        dynamics p ⟨bs ++ [2], flatten2 L⟩ 0) :=
  ⟨rk4_step_flatten2 p bs L dt, fun _ => rfl,
   fun time => by rw [dynamics_flatten2, dynamics_flatten2]⟩

/-- C10: `dynamics` and `rk4_step` preserve the shape of any tensor whose
last axis has size 2 (arbitrary leading batch dimensions), and every entry
of the trajectory returned by `simulate` has the shape of the batch-promoted
initial state. -/
theorem c10_shape_preservation (p : Params) (bs : List ℕ) (L : List (ℝ × ℝ))
    (time dt duration : ℝ) :
    (dynamics p ⟨bs ++ [2], flatten2 L⟩ time).shape = bs ++ [2] ∧
      (∃ t' : Tensor, rk4_step p ⟨bs ++ [2], flatten2 L⟩ dt = some t' ∧
        t'.shape = bs ++ [2]) ∧
      (∃ times : List ℝ, ∃ traj : List Tensor,
        simulate p (.tensor ⟨bs ++ [2], flatten2 L⟩) duration dt = .ok (times, traj) ∧
          ∀ e ∈ traj, e.shape = (promoteDim1 ⟨bs ++ [2], flatten2 L⟩).shape) := by
  refine ⟨by rw [dynamics_flatten2], ⟨_, rk4_step_flatten2 p bs L dt, rfl⟩, ?_⟩
  obtain ⟨traj, hrun, _, _, hshape⟩ := simulate_run p bs L duration dt
  exact ⟨_, traj, hrun, hshape⟩

/-- C6: for positive `duration` and `dt`, `simulate` returns `times` and
`trajectory` both of length `floor(duration/dt) + 1`; `times[0] = 0`,
`abs(times[-1] - duration) ≤ dt`, and (whenever at least one step is taken)
`times[i] = duration * i / n_steps`, i.e. the samples are evenly spaced
from `0` to `duration` inclusive. -/
theorem c6_simulate_lengths_times (p : Params) (bs : List ℕ) (L : List (ℝ × ℝ))
    (duration dt : ℝ) (hd : 0 < duration) (hdt : 0 < dt) :
    ∃ times : List ℝ, ∃ traj : List Tensor,
      simulate p (.tensor ⟨bs ++ [2], flatten2 L⟩) duration dt = .ok (times, traj) ∧
        times.length = (⌊duration / dt⌋).toNat + 1 ∧
        traj.length = (⌊duration / dt⌋).toNat + 1 ∧
        times.getD 0 0 = 0 ∧
        |times.getLastD 0 - duration| ≤ dt ∧
        (∀ i : ℕ, 0 < (⌊duration / dt⌋).toNat → i < (⌊duration / dt⌋).toNat + 1 →
          times.getD i 0 = duration * i / ((⌊duration / dt⌋).toNat : ℝ)) := by
  obtain ⟨traj, hrun, hlen, _, _⟩ := simulate_run p bs L duration dt
  have hn : nStepsOf duration dt = (⌊duration / dt⌋).toNat := rfl
  refine ⟨linspace 0 duration (nStepsOf duration dt + 1), traj, hrun, ?_, ?_, ?_, ?_, ?_⟩
  · rw [linspace_length, hn]
  · rw [hlen, hn]
  · exact linspace_head 0 duration _
  · rcases Nat.eq_zero_or_pos (nStepsOf duration dt) with h0 | hpos
    · have h0' : ⌊duration / dt⌋ = 0 := by
        have hge : (0 : ℤ) ≤ ⌊duration / dt⌋ :=
          Int.floor_nonneg.mpr (le_of_lt (div_pos hd hdt))
        have h0'' : (⌊duration / dt⌋).toNat = 0 := h0
        omega
      have hdd : duration < dt := by
        have hlt := Int.lt_floor_add_one (duration / dt)
        rw [h0'] at hlt
        norm_num at hlt
        exact (div_lt_one hdt).mp hlt
      have hlsp : linspace 0 duration (nStepsOf duration dt + 1) = [0] := by
        rw [h0]; simp [linspace]
      rw [hlsp, show ([0] : List ℝ).getLastD 0 = 0 from rfl, zero_sub, abs_neg,
        abs_of_pos hd]
      exact hdd.le
    · rw [linspace_last 0 duration _ hpos]
      simp [le_of_lt hdt]
  · intro i hpos hi
    rw [← hn] at hpos hi
    rw [linspace_getD 0 duration _ i hpos hi, hn]
    ring

/-- Witness for C6 at the concrete run `initial_state = [0.1, 0.0]`,
`duration = 1`, `dt = 0.5`. -/
theorem c6_simulate_lengths_times_w :
    (0 : ℝ) < 1 ∧ (0 : ℝ) < 0.5 ∧
      (∃ times : List ℝ, ∃ traj : List Tensor,
        simulate p0 (.tensor ⟨([] : List ℕ) ++ [2], flatten2 [((0.1 : ℝ), (0 : ℝ))]⟩)
            1 0.5 = .ok (times, traj) ∧
          times.length = (⌊(1 : ℝ) / 0.5⌋).toNat + 1 ∧
          traj.length = (⌊(1 : ℝ) / 0.5⌋).toNat + 1 ∧
          times.getD 0 0 = 0 ∧
          |times.getLastD 0 - 1| ≤ 0.5 ∧
          (∀ i : ℕ, 0 < (⌊(1 : ℝ) / 0.5⌋).toNat → i < (⌊(1 : ℝ) / 0.5⌋).toNat + 1 →
            times.getD i 0 = 1 * i / ((⌊(1 : ℝ) / 0.5⌋).toNat : ℝ))) :=
  ⟨by norm_num, by norm_num,
    c6_simulate_lengths_times p0 [] [(0.1, 0)] 1 0.5 (by norm_num) (by norm_num)⟩

/-- C1 (code bug): the `simulate` loop writes only rows `1..n_steps`, so
row `0` of the `torch.zeros` allocation is never seeded with the initial
state.  At `initial_state = [0.1, 0.0]`, `duration = 1`, `dt = 0.5`, the
returned trajectory's first row is the zeros row `[[0, 0]]`, which differs
from the batch-promoted initial state `[[0.1, 0]]`. -/
theorem c1_trajectory_head_is_zeros :
    ∃ traj : List Tensor,
      simulate p0 (.tensor ⟨[2], [0.1, 0]⟩) 1 0.5 =
          .ok (linspace 0 1 (nStepsOf 1 0.5 + 1), traj) ∧
        traj.head? = some ⟨[1, 2], [0, 0]⟩ ∧
        promoteDim1 ⟨[2], [0.1, 0]⟩ = ⟨[1, 2], [0.1, 0]⟩ ∧
        (Tensor.mk [1, 2] [0, 0]).data ≠ (promoteDim1 ⟨[2], [0.1, 0]⟩).data := by
  obtain ⟨traj, hrun, _, hhead, _⟩ := simulate_run p0 [] [(0.1, 0)] 1 0.5
  refine ⟨traj, hrun, ?_, rfl, ?_⟩
  · exact hhead
  · show ([0, 0] : List ℝ) ≠ [0.1, 0]
    intro h
    injection h with h1 h2
    norm_num at h1

/-- C2 (code bug): `compute_energy` computes the kinetic term but then
evaluates `self.m * self.g * self.L(1 - torch.cos(theta))`, calling the
float `self.L` like a function; it raises `TypeError` for every input
instead of returning `E = 0.5*m*(L*omega)^2 + m*g*L*(1-cos(theta))` (the
formula the spec declares authoritative, here `computeEnergySpecP`). -/
theorem c2_compute_energy_type_error :
    (∀ (p : Params) (states : Tensor),
        compute_energy p states = Except.error floatCallErr) ∧
      computeEnergySpecP p0 (0.1, 0) = p0.m * p0.g * p0.L * (1 - Real.cos 0.1) := by
  refine ⟨fun p states => rfl, ?_⟩
  norm_num [computeEnergySpecP, p0]

/-- C3 (code bug): a plain-list initial state is passed to
`torch.Tensor(initial_state, dtype=torch.float32, device=self.device)`;
the legacy `torch.Tensor` constructor has no `dtype` keyword, so the call
raises `TypeError` — the list `[0.1, 0.0]` is never coerced and the
simulation never starts. -/
theorem c3_list_initial_state_type_error :
    simulate p0 (.ofList [0.1, 0]) 1 0.01 =
      Except.error "TypeError: new received an invalid combination of arguments" := rfl

/-- C8: `compute_cartesian_coords(states)` returns `x = L*sin(theta)` and
`y = L*cos(theta)` elementwise over any batch shape, and consequently
`x^2 + y^2 = L^2` for every state. -/
theorem c8_cartesian_coords (p : Params) (bs : List ℕ) (L : List (ℝ × ℝ)) :
    compute_cartesian_coords p ⟨bs ++ [2], flatten2 L⟩ =
        (⟨bs, L.map (fun s => p.L * Real.sin s.1)⟩,
         ⟨bs, L.map (fun s => p.L * Real.cos s.1)⟩) ∧
      ∀ s ∈ L, (p.L * Real.sin s.1) ^ 2 + (p.L * Real.cos s.1) ^ 2 = p.L ^ 2 := by
  constructor
  · simp only [compute_cartesian_coords, selectLast_zero, mapT, smulT, List.map_map]
    rfl
  · intro s _
    rw [mul_pow, mul_pow, ← mul_add, Real.sin_sq_add_cos_sq, mul_one]

/-- C9 (code bug): the energies `compute_energy(trajectory[i])` of a
`simulate` trajectory cannot "remain constant within a bounded tolerance"
because `compute_energy` raises `TypeError` on every trajectory entry (the
defective `self.L(...)` call); no energy value exists at any step index. -/
theorem c9_energy_error_on_trajectory :
    ∃ traj : List Tensor,
      simulate p0 (.tensor ⟨[2], [0.1, 0]⟩) 1 0.25 =
          .ok (linspace 0 1 (nStepsOf 1 0.25 + 1), traj) ∧
        traj ≠ [] ∧
        ∀ e ∈ traj, compute_energy p0 e = Except.error floatCallErr := by
  obtain ⟨traj, hrun, hlen, _, _⟩ := simulate_run p0 [] [(0.1, 0)] 1 0.25
  refine ⟨traj, hrun, ?_, fun e _ => rfl⟩
  intro h
  rw [h] at hlen
  simp at hlen

/-- C4 counterexample: `set_params({"device": "cpu"})` succeeds without
raising, although `device` is not one of the parameter fields `g`, `L`,
`m` — refuting the claim that every other key raises. -/
theorem c4_device_key_no_error :
    (set_params initAttrs [("device", PyVal.str "cpu")]).2 = none ∧
      "device" ∉ (["g", "L", "m"] : List String) := by
  constructor
  · decide
  · decide

/-- C4 (amended): `set_params` overwrites any key that names an existing
attribute of the simulator object — the parameter fields `g`, `L`, `m`,
but equally the `device` attribute and the method names — with the given
value: a run whose keys are all known succeeds and returns the object
mutated by exactly the in-order `setattr` writes, and each such write makes
the named attribute read back as the written value while changing no other
attribute.  A key naming no attribute at all raises `ValueError` naming the
first such key, and never silently succeeds. -/
theorem c4_set_params_attr_contract (us : List (String × PyVal)) :
    ((set_params initAttrs us).2 = none ↔
        ∀ kv ∈ us, hasattr initAttrs kv.1 = true) ∧
      ((∀ kv ∈ us, hasattr initAttrs kv.1 = true) →
        set_params initAttrs us =
          (us.foldl (fun acc kv => setattr acc kv.1 kv.2) initAttrs, none)) ∧
      (∀ (m : AttrMap) (k : String) (v : PyVal),
        getattrVal (setattr m k v) k = some v ∧
          ∀ k' : String, k' ≠ k → getattrVal (setattr m k v) k' = getattrVal m k') ∧
      ∀ k : String, (set_params initAttrs us).2 = some k →
        hasattr initAttrs k = false ∧ k ∈ us.map Prod.fst :=
  ⟨set_params_ok_iff initAttrs us,
   fun h => set_params_ok_map initAttrs us h,
   fun m k v =>
     ⟨getattrVal_setattr_self m k v,
      fun k' hne => getattrVal_setattr_other m k v k' hne⟩,
   fun k h => set_params_err initAttrs us k h⟩

/-- Witness for C4 (amended) at concrete calls: `set_params({"g": 2})`
succeeds with `g` overwritten and reading back as `2`, and
`set_params({"g": 2, "bogus": 1})` raises naming `bogus`. -/
theorem c4_set_params_attr_contract_w :
    set_params initAttrs [("g", PyVal.num 2)] =
        ([("g", PyVal.num 2)].foldl (fun acc kv => setattr acc kv.1 kv.2) initAttrs,
          none) ∧
      getattrVal (setattr initAttrs "g" (PyVal.num 2)) "g" = some (PyVal.num 2) ∧
      (hasattr initAttrs "bogus" = false ∧
        "bogus" ∈ List.map Prod.fst [("g", PyVal.num 2), ("bogus", PyVal.num 1)]) :=
  ⟨(c4_set_params_attr_contract [("g", PyVal.num 2)]).2.1 (by decide),
   ((c4_set_params_attr_contract [("g", PyVal.num 2)]).2.2.1 initAttrs "g"
      (PyVal.num 2)).1,
   (c4_set_params_attr_contract [("g", PyVal.num 2), ("bogus", PyVal.num 1)]).2.2.2
      "bogus" (by decide)⟩

/-- C7: when `set_params` meets a key with no attribute, the updates for
all keys iterated before it have already been applied via `setattr` and
remain applied when the `ValueError` propagates — the returned attribute
dictionary is exactly the fold of the earlier updates, with no rollback. -/
theorem c7_no_rollback (m : AttrMap) (pre : List (String × PyVal)) (k : String)
    (v : PyVal) (post : List (String × PyVal))
    (hpre : ∀ kv ∈ pre, hasattr m kv.1 = true) (hk : hasattr m k = false) :
    set_params m (pre ++ (k, v) :: post) =
      (pre.foldl (fun acc kv => setattr acc kv.1 kv.2) m, some k) := by
  induction pre generalizing m with
  | nil =>
      simp only [List.nil_append, List.foldl_nil, set_params, hk]
      simp
  | cons kv0 pre ih =>
      obtain ⟨k0, v0⟩ := kv0
      have h0 : hasattr m k0 = true := hpre (k0, v0) (by simp)
      simp only [List.cons_append, set_params, h0, if_true, List.foldl_cons]
      apply ih
      · intro kv hkv
        rw [hasattr_setattr m k0 v0 h0 kv.1]
        exact hpre kv (List.mem_cons_of_mem _ hkv)
      · rw [hasattr_setattr m k0 v0 h0 k]
        exact hk

/-- Witness for C7 at the concrete call
`set_params({"L": 2, "oops": 3})` on a fresh simulator. -/
theorem c7_no_rollback_w :
    set_params initAttrs ([("L", PyVal.num 2)] ++ ("oops", PyVal.num 3) :: []) =
      ([("L", PyVal.num 2)].foldl (fun acc kv => setattr acc kv.1 kv.2) initAttrs,
        some "oops") :=
  c7_no_rollback initAttrs [("L", PyVal.num 2)] "oops" (PyVal.num 3) []
    (by decide) (by decide)

end Pendulum
